import Mathlib

/-!
Verification of the Discord channel archiver bot (`cogs/archiver.py`,
`config.py`) against its natural-language specification.

The relevant Python functions are shallowly embedded as Lean functions:

* `sanitize_filename`  — `Archiver.sanitize_filename` (strings as `List Char`)
* `is_authorized`      — `Archiver.is_authorized`, together with the
  owner-id construction in `Archiver.__init__` / `Config`
* `download_file`      — `Archiver.download_file`, with the HTTP world
  modelled as a list of request outcomes consumed one per request
* `get_unique_filename`— `Archiver.get_unique_filename`, with the
  directory contents modelled as a list of file names
* `scanHistory`        — the history scan of `Archiver._execute_download`
* `dlMsgs` / `dlAtts`  — the downloading loop of `_execute_download`,
  producing an event trace (flag checks, fetches, progress refreshes,
  cancellation report)
* `activeAfterExecute` — the lifetime of the `active_downloads` entry
  across the control paths of `_execute_download`
* `enqueue_job` / `drain_queue` — the per-user queue manager
  (`downloadall_command` enqueue + `process_download_queue` drain loop)
-/

namespace Archiver

/-! ### Filename sanitizer (`Archiver.sanitize_filename`, archiver.py lines 40-64) -/

/-- Characters the regex `[<>:"/\\|?*\x00-\x1f]` matches, apart from the
control range. -/
def invalidCharList : List Char := ['<', '>', ':', '"', '/', '\\', '|', '?', '*']

/-- Does the regex `[<>:"/\\|?*\x00-\x1f]` match character `c`? -/
def isInvalidChar (c : Char) : Bool := invalidCharList.contains c || c.toNat ≤ 31

/-- `re.sub(invalid_chars, '_', filename)`: every matched character is
replaced by an underscore. -/
def replaceInvalid (s : List Char) : List Char :=
  s.map (fun c => if isInvalidChar c then '_' else c)

/-- Characters stripped by `str.strip('. ')`. -/
def isStripChar (c : Char) : Bool := c == '.' || c == ' '

/-- Python `str.strip('. ')`: remove leading and trailing dots and spaces. -/
def stripDotsSpaces (s : List Char) : List Char :=
  ((s.dropWhile isStripChar).reverse.dropWhile isStripChar).reverse

/-- Embedding of `Archiver.sanitize_filename`. -/
def sanitize_filename (s : List Char) : List Char :=
  let sanitized := stripDotsSpaces (replaceInvalid s)
  if sanitized.isEmpty then "unnamed_file".data else sanitized

/-- Acceptance check on an optional edge character: not a dot and not a
space (used for the head and the last character of the result). -/
def edgeOk : Option Char → Bool
  | some c => !(c == '.' || c == ' ')
  | none => true

/-- The property the spec demands of the sanitizer's output: nonempty, no
invalid or control character, no leading or trailing dot or space. -/
def sanitizedOk (r : List Char) : Bool :=
  !r.isEmpty && r.all (fun c => !isInvalidChar c) && edgeOk r.head? && edgeOk r.getLast?

lemma isInvalidChar_underscore : isInvalidChar '_' = false := by decide

lemma mem_replaceInvalid {c : Char} {s : List Char} (h : c ∈ replaceInvalid s) :
    isInvalidChar c = false := by
  rcases List.mem_map.1 h with ⟨a, _, ha⟩
  by_cases hi : isInvalidChar a = true
  · simp [hi] at ha
    simp [← ha, isInvalidChar_underscore]
  · simp [Bool.not_eq_true] at hi
    simp [hi] at ha
    simpa [← ha] using hi

lemma stripDotsSpaces_subset (s : List Char) : stripDotsSpaces s ⊆ s := by
  intro c hc
  unfold stripDotsSpaces at hc
  rw [List.mem_reverse] at hc
  have h1 := (List.dropWhile_suffix (l := (s.dropWhile isStripChar).reverse)
    isStripChar).sublist.subset hc
  rw [List.mem_reverse] at h1
  exact (List.dropWhile_suffix (l := s) isStripChar).sublist.subset h1

lemma getLast?_of_suffix {l₁ l₂ : List Char} (h : l₁ <:+ l₂) (hne : l₁ ≠ []) :
    l₂.getLast? = l₁.getLast? := by
  rcases h with ⟨t, rfl⟩
  rw [List.getLast?_append_of_ne_nil]
  exact hne

lemma head?_stripDotsSpaces (s : List Char) :
    edgeOk (stripDotsSpaces s).head? = true := by
  unfold stripDotsSpaces
  rw [List.head?_reverse]
  by_cases hne : (s.dropWhile isStripChar).reverse.dropWhile isStripChar = []
  · simp [hne, edgeOk]
  · rw [← getLast?_of_suffix (List.dropWhile_suffix isStripChar) hne]
    rw [List.getLast?_reverse]
    have h := List.head?_dropWhile_not isStripChar s
    revert h
    cases hh : (s.dropWhile isStripChar).head? with
    | none => intro _; simp [edgeOk]
    | some c =>
      intro h
      simp only [edgeOk]
      simp only [isStripChar] at h
      simp [h]

lemma getLast?_stripDotsSpaces (s : List Char) :
    edgeOk (stripDotsSpaces s).getLast? = true := by
  unfold stripDotsSpaces
  rw [List.getLast?_reverse]
  have h := List.head?_dropWhile_not isStripChar (s.dropWhile isStripChar).reverse
  revert h
  cases hh : ((s.dropWhile isStripChar).reverse.dropWhile isStripChar).head? with
  | none => intro _; simp [edgeOk]
  | some c =>
    intro h
    simp only [edgeOk]
    simp only [isStripChar] at h
    simp [h]

/-! ### Unique-name resolver (`Archiver.get_unique_filename`, archiver.py
lines 134-162). The directory is modelled by the list of file names it
contains; `Path.exists` becomes list membership. -/

/-- Decimal digit character (`d` is taken modulo the match arms; only
`d < 10` is ever used). -/
def digitChar : Nat → Char
  | 0 => '0' | 1 => '1' | 2 => '2' | 3 => '3' | 4 => '4'
  | 5 => '5' | 6 => '6' | 7 => '7' | 8 => '8' | _ => '9'

/-- Fuelled base-10 rendering, most significant digit first. -/
def natDigitsAux : Nat → Nat → List Char
  | 0, _ => []
  | fuel + 1, n =>
    if n < 10 then [digitChar n]
    else natDigitsAux fuel (n / 10) ++ [digitChar (n % 10)]

/-- Decimal rendering of a natural number, as produced by the f-string
interpolation of the counter. -/
def natDigits (n : Nat) : List Char := natDigitsAux (n + 1) n

/-- Value of a digit string (parsing inverse used to prove `natDigits`
injective). -/
def digitsVal (l : List Char) : Nat := l.foldl (fun a c => a * 10 + (c.toNat - 48)) 0

/-- Index of the last dot in a name, as `str.rfind('.')` computes it
(`none` when there is no dot). -/
def rfindDot (l : List Char) : Option Nat :=
  match l.reverse.findIdx? (· == '.') with
  | none => none
  | some j => some (l.length - 1 - j)

/-- `PurePath.stem` and `PurePath.suffix`: the name splits at the last dot
only when that dot is neither the first nor the last character. -/
def splitStemSuffix (name : List Char) : List Char × List Char :=
  match rfindDot name with
  | none => (name, [])
  | some i =>
    if 0 < i ∧ i < name.length - 1 then (name.take i, name.drop i)
    else (name, [])

/-- Candidate file name `f"{stem}_{counter}{suffix}"`. -/
def candName (stem suffix : List Char) (counter : Nat) : List Char :=
  stem ++ '_' :: (natDigits counter ++ suffix)

/-- The `while True` probe loop of `get_unique_filename`, with explicit
fuel (the loop itself is unbounded; sufficiency of the fuel is proved
below, which is exactly the termination claim). -/
def probeCounter (existing : List (List Char)) (stem suffix : List Char) :
    Nat → Nat → Option (List Char)
  | 0, _ => none
  | fuel + 1, counter =>
    let cand := candName stem suffix counter
    if cand ∈ existing then probeCounter existing stem suffix fuel (counter + 1)
    else some cand

/-- Embedding of `Archiver.get_unique_filename`. -/
def get_unique_filename (existing : List (List Char)) (filename : List Char) :
    Option (List Char) :=
  if filename ∈ existing then
    probeCounter existing (splitStemSuffix filename).1 (splitStemSuffix filename).2
      (existing.length + 1) 1
  else some filename

lemma digitsVal_append_singleton (ds : List Char) (c : Char) :
    digitsVal (ds ++ [c]) = digitsVal ds * 10 + (c.toNat - 48) := by
  simp [digitsVal, List.foldl_append]

lemma digitsVal_digitChar {d : Nat} (h : d < 10) :
    (digitChar d).toNat - 48 = d := by
  interval_cases d <;> decide

lemma digitsVal_natDigitsAux :
    ∀ fuel n, n < 10 ^ fuel → digitsVal (natDigitsAux fuel n) = n := by
  intro fuel
  induction fuel with
  | zero =>
    intro n hn
    simp at hn
    simp [hn, natDigitsAux, digitsVal]
  | succ fuel ih =>
    intro n hn
    by_cases h10 : n < 10
    · simp [natDigitsAux, h10, digitsVal,
        digitsVal_digitChar h10]
    · have hdiv : n / 10 < 10 ^ fuel := by
        apply Nat.div_lt_of_lt_mul
        calc n < 10 ^ (fuel + 1) := hn
        _ = 10 * 10 ^ fuel := by ring
      simp only [natDigitsAux, h10, if_false]
      rw [digitsVal_append_singleton, ih _ hdiv,
        digitsVal_digitChar (Nat.mod_lt _ (by norm_num))]
      omega

lemma digitsVal_natDigits (n : Nat) : digitsVal (natDigits n) = n := by
  apply digitsVal_natDigitsAux
  calc n < n + 1 := Nat.lt_succ_self n
  _ < 10 ^ (n + 1) := Nat.lt_pow_self (by norm_num) (n + 1)

lemma natDigits_injective : Function.Injective natDigits := by
  intro n m h
  have := digitsVal_natDigits n
  rw [h, digitsVal_natDigits] at this
  omega

lemma candName_injective (stem suffix : List Char) :
    Function.Injective (candName stem suffix) := by
  intro n m h
  unfold candName at h
  have h1 := List.append_cancel_left h
  simp only [List.cons.injEq, true_and] at h1
  exact natDigits_injective (List.append_cancel_right h1)

/-- Pigeonhole: among the first `existing.length + 1` candidates one is
free of collisions. -/
lemma exists_free_candidate (existing : List (List Char)) (stem suffix : List Char) :
    ∃ n, 1 ≤ n ∧ n ≤ existing.length + 1 ∧ candName stem suffix n ∉ existing := by
  by_contra hall
  push_neg at hall
  set k := existing.length with hk
  set l := (List.range (k + 1)).map (fun i => candName stem suffix (i + 1)) with hl
  have hnodup : l.Nodup := by
    rw [hl]
    refine List.Nodup.map ?_ (List.nodup_range _)
    intro a b hab
    have := candName_injective stem suffix hab
    omega
  have hsub : l ⊆ existing := by
    intro c hc
    rw [hl] at hc
    rcases List.mem_map.1 hc with ⟨i, hi, rfl⟩
    rw [List.mem_range] at hi
    exact hall (i + 1) (by omega) (by omega)
  have hlen : l.length ≤ existing.length :=
    (List.subperm_of_subset hnodup hsub).length_le
  rw [hl] at hlen
  simp only [List.length_map, List.length_range] at hlen
  omega

lemma probeCounter_isSome (existing : List (List Char)) (stem suffix : List Char) :
    ∀ fuel counter,
      (∃ n, counter ≤ n ∧ n < counter + fuel ∧ candName stem suffix n ∉ existing) →
      (probeCounter existing stem suffix fuel counter).isSome = true := by
  intro fuel
  induction fuel with
  | zero =>
    intro counter ⟨n, h1, h2, _⟩
    omega
  | succ fuel ih =>
    intro counter ⟨n, h1, h2, h3⟩
    by_cases hmem : candName stem suffix counter ∈ existing
    · simp only [probeCounter, hmem, if_true]
      apply ih
      have hne : n ≠ counter := by rintro rfl; exact h3 hmem
      exact ⟨n, by omega, by omega, h3⟩
    · simp [probeCounter, hmem]

lemma probeCounter_characterize (existing : List (List Char)) (stem suffix : List Char) :
    ∀ fuel counter c,
      probeCounter existing stem suffix fuel counter = some c →
      ∃ n, counter ≤ n ∧ c = candName stem suffix n ∧
        candName stem suffix n ∉ existing ∧
        ∀ m, counter ≤ m → m < n → candName stem suffix m ∈ existing := by
  intro fuel
  induction fuel with
  | zero => intro counter c h; simp [probeCounter] at h
  | succ fuel ih =>
    intro counter c h
    by_cases hmem : candName stem suffix counter ∈ existing
    · simp only [probeCounter, hmem, if_true] at h
      rcases ih (counter + 1) c h with ⟨n, hn1, hn2, hn3, hn4⟩
      refine ⟨n, by omega, hn2, hn3, ?_⟩
      intro m hm1 hm2
      rcases Nat.eq_or_lt_of_le hm1 with he | hlt
      · exact he ▸ hmem
      · exact hn4 m hlt hm2
    · simp only [probeCounter, hmem, if_false] at h
      have hc : c = candName stem suffix counter := by simpa using h.symm
      exact ⟨counter, le_refl _, hc, hmem, fun m hm1 hm2 => absurd hm2 (by omega)⟩

/-! ### Authorization (`Archiver.is_authorized`, archiver.py lines 30-38;
owner id from `Config.OWNER_ID` via `int(Config.OWNER_ID) if Config.OWNER_ID
else None`, archiver.py line 24) -/

/-- Owner id construction from the environment value (`None` when the
variable is unset, otherwise the raw string): a falsy value (absent or
empty string) yields `None`, otherwise `int(...)` parses it. -/
def ownerIdOfEnv : Option String → (String → Int) → Option Int
  | none, _ => none
  | some s, parse => if s.isEmpty then none else some (parse s)

/-- Embedding of `Archiver.is_authorized`: `if not self.owner_id: return
False`, then owner match, then approved-list membership. Python truthiness
makes both `None` and `0` falsy. -/
def is_authorized (owner_id : Option Int) (approved_users : List Int)
    (user_id : Int) : Bool :=
  match owner_id with
  | none => false
  | some o =>
    if o == 0 then false
    else if user_id == o then true
    else approved_users.contains user_id

/-! ### File fetcher (`Archiver.download_file`, archiver.py lines 102-132) -/

/-- Outcome of a single HTTP GET: either a response with a status code
(and, when the body is written, whether writing raises), or a transport
exception. -/
inductive HttpResult where
  | response (status : Nat) (writeFails : Bool)
  | transportExn
deriving DecidableEq, Repr

/-- The body of `download_file`'s `try` block: a transport error raises; a
200 response writes the body (which may itself raise) and returns `True`;
any other status returns `False`. -/
def download_file_attempt : HttpResult → Except Unit Bool
  | .transportExn => .error ()
  | .response status writeFails =>
    if status == 200 then
      if writeFails then .error () else .ok true
    else .ok false

/-- Embedding of `Archiver.download_file`: issue exactly one request
(consume the head of the world list), catch every exception and turn it
into `False`. -/
def download_file (world : List HttpResult) : Bool × List HttpResult :=
  match world with
  | [] => (false, [])
  | r :: rest =>
    (match download_file_attempt r with
     | .ok b => b
     | .error _ => false, rest)

/-! ### History scan of `_execute_download` (archiver.py lines 304-317).
Messages are modelled with author id, message id and the list of their
attachments; an attachment carries the success bit its later fetch will
produce. The history list is newest-first, as `channel.history` yields
it. -/

/-- A message as seen by the scan loop. -/
structure Msg where
  authorId : Nat
  msgId : Nat
  attachments : List Bool
deriving DecidableEq, Repr

/-- The incremental stop condition of line 311: `stop_on_bot and
message.author.id == self.bot.user.id and message.id !=
status_message.id`. -/
def isCutoff (stopOnBot : Bool) (botId statusId : Nat) (m : Msg) : Bool :=
  stopOnBot && (m.authorId == botId) && (m.msgId != statusId)

/-- The scan loop: walk the history, break at the cutoff, keep messages
with at least one attachment (`if message.attachments`). -/
def scanHistory (stopOnBot : Bool) (botId statusId : Nat) : List Msg → List Msg
  | [] => []
  | m :: rest =>
    if isCutoff stopOnBot botId statusId m then []
    else if m.attachments.isEmpty then scanHistory stopOnBot botId statusId rest
    else m :: scanHistory stopOnBot botId statusId rest

/-! ### Downloading phase of `_execute_download` (archiver.py lines
348-409). The loop is embedded as a trace-producing function: each read of
the cancellation flag, each file fetch, each progress refresh and the
cancellation report become events. The cancellation flag is shared state
mutated by `/stop`; it is modelled as a function of the number of flag
reads performed so far. The per-attachment success bit feeds
`download_file`'s result. -/

/-- Events of the downloading loop. -/
inductive Ev where
  | check (b : Bool)
  | fetch (ok : Bool)
  | refresh (d : Nat)
  | cancelReport (d : Nat)
deriving DecidableEq, Repr

/-- State returned by the loop: event trace, number of flag reads
performed, `downloaded` and `failed` counters, and whether the loop
returned through a cancellation branch. -/
structure LoopState where
  events : List Ev
  reads : Nat
  downloaded : Nat
  failed : Nat
  cancelled : Bool
deriving DecidableEq, Repr

/-- Inner loop over the attachments of one message (lines 368-409): check
the flag before each file (line 370, report and return when set), fetch,
bump `downloaded` or `failed`, then refresh the status surface when
`downloaded % 10 == 0` (line 402). -/
def dlAtts (flag : Nat → Bool) : List Bool → Nat → Nat → Nat → LoopState
  | [], t, d, f => ⟨[], t, d, f, false⟩
  | a :: rest, t, d, f =>
    if flag t then ⟨[.check true, .cancelReport d], t + 1, d, f, true⟩
    else
      let d' := if a then d + 1 else d
      let f' := if a then f else f + 1
      let refreshEvs := if d' % 10 == 0 then [Ev.refresh d'] else []
      let s := dlAtts flag rest (t + 1) d' f'
      ⟨.check false :: .fetch a :: (refreshEvs ++ s.events), s.reads, s.downloaded, s.failed,
        s.cancelled⟩

/-- Outer loop over the collected messages (lines 357-366): check the flag
at the top of each message iteration (line 359, report and return when
set), then run the inner loop; a cancellation inside the inner loop
returns from the whole executor. -/
def dlMsgs (flag : Nat → Bool) : List (List Bool) → Nat → Nat → Nat → LoopState
  | [], t, d, f => ⟨[], t, d, f, false⟩
  | mAtts :: rest, t, d, f =>
    if flag t then ⟨[.check true, .cancelReport d], t + 1, d, f, true⟩
    else
      let s1 := dlAtts flag mAtts (t + 1) d f
      if s1.cancelled then ⟨.check false :: s1.events, s1.reads, s1.downloaded, s1.failed, true⟩
      else
        let s2 := dlMsgs flag rest s1.reads s1.downloaded s1.failed
        ⟨.check false :: (s1.events ++ s2.events), s2.reads, s2.downloaded, s2.failed,
          s2.cancelled⟩

/-- The whole downloading phase, started with fresh counters. -/
def execDownloading (flag : Nat → Bool) (msgs : List (List Bool)) : LoopState :=
  dlMsgs flag msgs 0 0 0

/-- Guardedness of a trace with a given preceding event: every `fetch` is
immediately preceded by a flag check that read `false`. -/
def fetchGuardedFrom : Option Ev → List Ev → Bool
  | _, [] => true
  | prev, e :: rest =>
    (match e with
     | Ev.fetch _ => prev == some (Ev.check false)
     | _ => true) && fetchGuardedFrom (some e) rest

/-- Every fetch of the trace is immediately preceded by a passing flag
check. -/
def fetchGuarded (l : List Ev) : Bool := fetchGuardedFrom none l

/-- Number of successful fetches in a trace. -/
def fetchOkCount (l : List Ev) : Nat := l.countP (fun e => decide (e = Ev.fetch true))

/-- One step of the progress-refresh discipline. The state is the current
success count together with a pending obligation: `some e` means the next
event must be a refresh carrying count `e`. A fetch whose resulting
success count is divisible by 10 creates the obligation; a refresh is
legal only when it discharges one. -/
def refreshStep : (Nat × Option Nat) → Ev → Option (Nat × Option Nat)
  | (d, some e), ev =>
    match ev with
    | Ev.refresh x => if x == e then some (d, none) else none
    | _ => none
  | (d, none), ev =>
    match ev with
    | Ev.refresh _ => none
    | Ev.fetch ok =>
      let d' := if ok then d + 1 else d
      if d' % 10 == 0 then some (d', some d') else some (d', none)
    | _ => some (d, none)

/-- Run the refresh discipline over a trace. A result `some (d, none)`
means: every refresh in the trace occurs immediately after a fetch whose
cumulative success count is divisible by 10 and carries that count, every
such fetch is immediately followed by its refresh, and `d` is the final
success count. -/
def refreshFold (st : Nat × Option Nat) (l : List Ev) : Option (Nat × Option Nat) :=
  l.foldlM refreshStep st

/-- Accumulate the last event of a trace, defaulting to a given preceding
event for the empty trace. -/
def lastOr (prev : Option Ev) : List Ev → Option Ev
  | [] => prev
  | e :: rest => lastOr (some e) rest

lemma fetchGuardedFrom_append :
    ∀ (xs : List Ev) (prev : Option Ev) (ys : List Ev),
      fetchGuardedFrom prev (xs ++ ys) =
        (fetchGuardedFrom prev xs && fetchGuardedFrom (lastOr prev xs) ys) := by
  intro xs
  induction xs with
  | nil => intro prev ys; simp [fetchGuardedFrom, lastOr]
  | cons e xs ih =>
    intro prev ys
    simp only [List.cons_append, fetchGuardedFrom, lastOr, List.append_eq, ih, Bool.and_assoc]

lemma fetchGuardedFrom_dlAtts (flag : Nat → Bool) :
    ∀ (atts : List Bool) (t d f : Nat) (prev : Option Ev),
      fetchGuardedFrom prev (dlAtts flag atts t d f).events = true := by
  intro atts
  induction atts with
  | nil => intro t d f prev; simp [dlAtts, fetchGuardedFrom]
  | cons a rest ih =>
    intro t d f prev
    by_cases hf : flag t = true
    · simp [dlAtts, hf, fetchGuardedFrom]
    · rw [Bool.not_eq_true] at hf
      by_cases hr : ((if a then d + 1 else d) % 10 == 0) = true
      · simp [dlAtts, hf, hr, fetchGuardedFrom, ih]
      · rw [Bool.not_eq_true] at hr
        simp [dlAtts, hf, hr, fetchGuardedFrom, ih]

lemma fetchGuardedFrom_dlMsgs (flag : Nat → Bool) :
    ∀ (msgs : List (List Bool)) (t d f : Nat) (prev : Option Ev),
      fetchGuardedFrom prev (dlMsgs flag msgs t d f).events = true := by
  intro msgs
  induction msgs with
  | nil => intro t d f prev; simp [dlMsgs, fetchGuardedFrom]
  | cons mAtts rest ih =>
    intro t d f prev
    by_cases hf : flag t = true
    · simp [dlMsgs, hf, fetchGuardedFrom]
    · rw [Bool.not_eq_true] at hf
      by_cases hc : (dlAtts flag mAtts (t + 1) d f).cancelled = true
      · simp [dlMsgs, hf, hc, fetchGuardedFrom, fetchGuardedFrom_dlAtts]
      · rw [Bool.not_eq_true] at hc
        simp [dlMsgs, hf, hc, fetchGuardedFrom, fetchGuardedFrom_append,
          fetchGuardedFrom_dlAtts, ih]

lemma fetchOkCount_nil : fetchOkCount [] = 0 := rfl

lemma fetchOkCount_cons (e : Ev) (l : List Ev) :
    fetchOkCount (e :: l) = fetchOkCount l + (if e = Ev.fetch true then 1 else 0) := by
  simp [fetchOkCount, List.countP_cons]

lemma fetchOkCount_append (l₁ l₂ : List Ev) :
    fetchOkCount (l₁ ++ l₂) = fetchOkCount l₁ + fetchOkCount l₂ := by
  simp [fetchOkCount, List.countP_append]

lemma dlAtts_invariant (flag : Nat → Bool) :
    ∀ (atts : List Bool) (t d f : Nat),
      t ≤ (dlAtts flag atts t d f).reads ∧
      ((dlAtts flag atts t d f).cancelled = false →
        Ev.check true ∉ (dlAtts flag atts t d f).events ∧
        (dlAtts flag atts t d f).downloaded = d + fetchOkCount (dlAtts flag atts t d f).events ∧
        ∀ i, t ≤ i → i < (dlAtts flag atts t d f).reads → flag i = false) ∧
      ((dlAtts flag atts t d f).cancelled = true →
        ∃ pre, (dlAtts flag atts t d f).events =
            pre ++ [Ev.check true, Ev.cancelReport (dlAtts flag atts t d f).downloaded] ∧
          Ev.check true ∉ pre ∧
          (dlAtts flag atts t d f).downloaded = d + fetchOkCount pre) := by
  intro atts
  induction atts with
  | nil =>
    intro t d f
    refine ⟨le_refl _, fun _ => ⟨by simp [dlAtts], by simp [dlAtts, fetchOkCount_nil], ?_⟩,
      fun hc => by simp [dlAtts] at hc⟩
    intro i h1 h2
    simp [dlAtts] at h2
    omega
  | cons a rest ih =>
    intro t d f
    by_cases hf : flag t = true
    · refine ⟨by simp [dlAtts, hf], fun hc => by simp [dlAtts, hf] at hc, fun _ => ?_⟩
      refine ⟨[], by simp [dlAtts, hf], by simp, by simp [dlAtts, hf, fetchOkCount_nil]⟩
    · rw [Bool.not_eq_true] at hf
      have hrec := ih (t + 1) (if a then d + 1 else d) (if a then f else f + 1)
      set s := dlAtts flag rest (t + 1) (if a then d + 1 else d) (if a then f else f + 1)
        with hs
      obtain ⟨hr1, hr2, hr3⟩ := hrec
      have hev : dlAtts flag (a :: rest) t d f =
          ⟨Ev.check false :: Ev.fetch a ::
            ((if ((if a then d + 1 else d) % 10 == 0) = true
               then [Ev.refresh (if a then d + 1 else d)] else []) ++ s.events),
            s.reads, s.downloaded, s.failed, s.cancelled⟩ := by
        rw [dlAtts, hf]
        simp
      rw [hev]
      simp only
      have hnotin :
          Ev.check true ∉ (if ((if a then d + 1 else d) % 10 == 0) = true
            then [Ev.refresh (if a then d + 1 else d)] else []) := by
        split <;> simp
      have hcnt : fetchOkCount ((if ((if a then d + 1 else d) % 10 == 0) = true
            then [Ev.refresh (if a then d + 1 else d)] else []) ++ s.events) =
          fetchOkCount s.events := by
        rw [fetchOkCount_append]
        by_cases h10 : ((if a then d + 1 else d) % 10 == 0) = true
        · simp [h10, fetchOkCount_cons, fetchOkCount_nil]
        · simp [h10, fetchOkCount_nil]
      refine ⟨by omega, ?_, ?_⟩
      · intro hc
        obtain ⟨h1, h2, h3⟩ := hr2 hc
        refine ⟨?_, ?_, ?_⟩
        · simp only [List.mem_cons, List.mem_append]
          push_neg
          exact ⟨by simp, by simp, hnotin, h1⟩
        · rw [fetchOkCount_cons, fetchOkCount_cons, hcnt]
          by_cases ha : a = true <;> simp [ha] at h2 ⊢ <;> omega
        · intro i hi1 hi2
          rcases Nat.eq_or_lt_of_le hi1 with he | hlt
          · exact he ▸ hf
          · exact h3 i hlt hi2
      · intro hc
        obtain ⟨pre, h1, h2, h3⟩ := hr3 hc
        refine ⟨Ev.check false :: Ev.fetch a ::
          ((if ((if a then d + 1 else d) % 10 == 0) = true
             then [Ev.refresh (if a then d + 1 else d)] else []) ++ pre), ?_, ?_, ?_⟩
        · rw [h1]
          simp
        · simp only [List.mem_cons, List.mem_append]
          push_neg
          exact ⟨by simp, by simp, hnotin, h2⟩
        · rw [fetchOkCount_cons, fetchOkCount_cons, fetchOkCount_append]
          have hcnt0 : fetchOkCount (if ((if a then d + 1 else d) % 10 == 0) = true
              then [Ev.refresh (if a then d + 1 else d)] else []) = 0 := by
            by_cases h10 : ((if a then d + 1 else d) % 10 == 0) = true
            · simp [h10, fetchOkCount_cons, fetchOkCount_nil]
            · simp [h10, fetchOkCount_nil]
          rw [hcnt0]
          by_cases ha : a = true <;> simp [ha] at h3 ⊢ <;> omega

lemma dlMsgs_invariant (flag : Nat → Bool) :
    ∀ (msgs : List (List Bool)) (t d f : Nat),
      t ≤ (dlMsgs flag msgs t d f).reads ∧
      ((dlMsgs flag msgs t d f).cancelled = false →
        Ev.check true ∉ (dlMsgs flag msgs t d f).events ∧
        (dlMsgs flag msgs t d f).downloaded = d + fetchOkCount (dlMsgs flag msgs t d f).events ∧
        ∀ i, t ≤ i → i < (dlMsgs flag msgs t d f).reads → flag i = false) ∧
      ((dlMsgs flag msgs t d f).cancelled = true →
        ∃ pre, (dlMsgs flag msgs t d f).events =
            pre ++ [Ev.check true, Ev.cancelReport (dlMsgs flag msgs t d f).downloaded] ∧
          Ev.check true ∉ pre ∧
          (dlMsgs flag msgs t d f).downloaded = d + fetchOkCount pre) := by
  intro msgs
  induction msgs with
  | nil =>
    intro t d f
    refine ⟨le_refl _, fun _ => ⟨by simp [dlMsgs], by simp [dlMsgs, fetchOkCount_nil], ?_⟩,
      fun hc => by simp [dlMsgs] at hc⟩
    intro i h1 h2
    simp [dlMsgs] at h2
    omega
  | cons mAtts rest ih =>
    intro t d f
    by_cases hf : flag t = true
    · refine ⟨by simp [dlMsgs, hf], fun hc => by simp [dlMsgs, hf] at hc, fun _ => ?_⟩
      refine ⟨[], by simp [dlMsgs, hf], by simp, by simp [dlMsgs, hf, fetchOkCount_nil]⟩
    · rw [Bool.not_eq_true] at hf
      obtain ⟨a1, a2, a3⟩ := dlAtts_invariant flag mAtts (t + 1) d f
      set s1 := dlAtts flag mAtts (t + 1) d f with hs1
      by_cases hc1 : s1.cancelled = true
      · have hev : dlMsgs flag (mAtts :: rest) t d f =
            ⟨Ev.check false :: s1.events, s1.reads, s1.downloaded, s1.failed, true⟩ := by
          rw [dlMsgs, hf]
          simp [← hs1, hc1]
        rw [hev]
        obtain ⟨pre, h1, h2, h3⟩ := a3 hc1
        refine ⟨by show t ≤ s1.reads; omega, fun hc => by simp at hc, fun _ => ?_⟩
        refine ⟨Ev.check false :: pre, ?_, ?_, ?_⟩
        · simp only
          rw [h1]
          simp
        · simp only [List.mem_cons]
          push_neg
          exact ⟨by simp, h2⟩
        · simp only
          rw [fetchOkCount_cons] at *
          simpa using h3
      · rw [Bool.not_eq_true] at hc1
        obtain ⟨h1, h2, h3⟩ := a2 hc1
        obtain ⟨b1, b2, b3⟩ := ih s1.reads s1.downloaded s1.failed
        set s2 := dlMsgs flag rest s1.reads s1.downloaded s1.failed with hs2
        have hev : dlMsgs flag (mAtts :: rest) t d f =
            ⟨Ev.check false :: (s1.events ++ s2.events), s2.reads, s2.downloaded, s2.failed,
              s2.cancelled⟩ := by
          rw [dlMsgs, hf]
          simp [← hs1, hc1, ← hs2]
        rw [hev]
        refine ⟨by show t ≤ s2.reads; omega, ?_, ?_⟩
        · intro hc
          obtain ⟨g1, g2, g3⟩ := b2 hc
          refine ⟨?_, ?_, ?_⟩
          · simp only [List.mem_cons, List.mem_append]
            push_neg
            exact ⟨by simp, h1, g1⟩
          · show s2.downloaded = d + fetchOkCount (Ev.check false :: (s1.events ++ s2.events))
            rw [fetchOkCount_cons, fetchOkCount_append]
            have hz : (if (Ev.check false : Ev) = Ev.fetch true then 1 else 0) = 0 := rfl
            rw [hz]
            omega
          · intro i hi1 hi2
            simp only at hi2
            rcases Nat.eq_or_lt_of_le hi1 with he | hlt
            · exact he ▸ hf
            · by_cases hi3 : i < s1.reads
              · exact h3 i hlt hi3
              · exact g3 i (by omega) hi2
        · intro hc
          obtain ⟨pre2, g1, g2, g3⟩ := b3 hc
          refine ⟨Ev.check false :: (s1.events ++ pre2), ?_, ?_, ?_⟩
          · simp only
            rw [g1]
            simp
          · simp only [List.mem_cons, List.mem_append]
            push_neg
            exact ⟨by simp, h1, g2⟩
          · show s2.downloaded = d + fetchOkCount (Ev.check false :: (s1.events ++ pre2))
            rw [fetchOkCount_cons, fetchOkCount_append]
            have hz : (if (Ev.check false : Ev) = Ev.fetch true then 1 else 0) = 0 := rfl
            rw [hz]
            omega

lemma refreshFold_append (st : Nat × Option Nat) (xs ys : List Ev) :
    refreshFold st (xs ++ ys) =
      (refreshFold st xs).bind (fun st' => refreshFold st' ys) := by
  simp [refreshFold, List.foldlM_append]

lemma refreshFold_dlAtts (flag : Nat → Bool) :
    ∀ (atts : List Bool) (t d f : Nat),
      refreshFold (d, none) (dlAtts flag atts t d f).events =
        some ((dlAtts flag atts t d f).downloaded, none) := by
  intro atts
  induction atts with
  | nil => intro t d f; simp [dlAtts, refreshFold]
  | cons a rest ih =>
    intro t d f
    by_cases hf : flag t = true
    · simp [dlAtts, hf, refreshFold, refreshStep]
    · rw [Bool.not_eq_true] at hf
      by_cases hr : ((if a then d + 1 else d) % 10 == 0) = true
      · simp only [dlAtts, hf, Bool.false_eq_true, if_false, hr, if_true]
        simp only [refreshFold, List.foldlM_cons, List.cons_append, List.nil_append]
        have h1 : refreshStep (d, none) (Ev.check false) = some (d, none) := rfl
        have h2 : refreshStep (d, none) (Ev.fetch a) =
            some ((if a then d + 1 else d), some (if a then d + 1 else d)) := by
          simp [refreshStep, hr]
        have h3 : refreshStep ((if a then d + 1 else d), some (if a then d + 1 else d))
            (Ev.refresh (if a then d + 1 else d)) =
            some ((if a then d + 1 else d), none) := by
          simp [refreshStep]
        rw [h1]
        simp only [Option.bind_eq_bind, Option.some_bind]
        rw [h2]
        simp only [Option.some_bind]
        rw [h3]
        simp only [Option.some_bind]
        exact ih (t + 1) (if a then d + 1 else d) (if a then f else f + 1)
      · simp only [dlAtts, hf, Bool.false_eq_true, if_false, hr, List.nil_append]
        simp only [refreshFold, List.foldlM_cons]
        have h1 : refreshStep (d, none) (Ev.check false) = some (d, none) := rfl
        have h2 : refreshStep (d, none) (Ev.fetch a) =
            some ((if a then d + 1 else d), none) := by
          simp [refreshStep, hr]
        rw [h1]
        simp only [Option.bind_eq_bind, Option.some_bind]
        rw [h2]
        simp only [Option.some_bind]
        exact ih (t + 1) (if a then d + 1 else d) (if a then f else f + 1)

lemma refreshFold_dlMsgs (flag : Nat → Bool) :
    ∀ (msgs : List (List Bool)) (t d f : Nat),
      refreshFold (d, none) (dlMsgs flag msgs t d f).events =
        some ((dlMsgs flag msgs t d f).downloaded, none) := by
  intro msgs
  induction msgs with
  | nil => intro t d f; simp [dlMsgs, refreshFold]
  | cons mAtts rest ih =>
    intro t d f
    by_cases hf : flag t = true
    · simp [dlMsgs, hf, refreshFold, refreshStep]
    · rw [Bool.not_eq_true] at hf
      set s1 := dlAtts flag mAtts (t + 1) d f with hs1
      by_cases hc1 : s1.cancelled = true
      · have hev : dlMsgs flag (mAtts :: rest) t d f =
            ⟨Ev.check false :: s1.events, s1.reads, s1.downloaded, s1.failed, true⟩ := by
          rw [dlMsgs, hf]
          simp [← hs1, hc1]
        rw [hev]
        show refreshFold (d, none) (Ev.check false :: s1.events) = some (s1.downloaded, none)
        simp only [refreshFold, List.foldlM_cons]
        have h1 : refreshStep (d, none) (Ev.check false) = some (d, none) := rfl
        rw [h1]
        simp only [Option.bind_eq_bind, Option.some_bind]
        exact refreshFold_dlAtts flag mAtts (t + 1) d f
      · rw [Bool.not_eq_true] at hc1
        set s2 := dlMsgs flag rest s1.reads s1.downloaded s1.failed with hs2
        have hev : dlMsgs flag (mAtts :: rest) t d f =
            ⟨Ev.check false :: (s1.events ++ s2.events), s2.reads, s2.downloaded, s2.failed,
              s2.cancelled⟩ := by
          rw [dlMsgs, hf]
          simp [← hs1, hc1, ← hs2]
        rw [hev]
        show refreshFold (d, none) (Ev.check false :: (s1.events ++ s2.events)) =
          some (s2.downloaded, none)
        simp only [refreshFold, List.foldlM_cons]
        have h1 : refreshStep (d, none) (Ev.check false) = some (d, none) := rfl
        rw [h1]
        simp only [Option.bind_eq_bind, Option.some_bind]
        show refreshFold (d, none) (s1.events ++ s2.events) = some (s2.downloaded, none)
        rw [refreshFold_append, refreshFold_dlAtts flag mAtts (t + 1) d f]
        simp only [Option.some_bind]
        exact ih s1.reads s1.downloaded s1.failed

/-! ### Lifetime of the `active_downloads` entry across `_execute_download`
(archiver.py lines 259-436). The entry for the requesting user is an
`Option Bool` (the `cancelled` field of the record; `none` = no entry).
The scan can end in a permission error, another exception, or a message
list (lines 308-329); those error paths and the zero-attachment path
(line 334) return before the record is created at line 353. The
downloading loop runs inside `try ... finally` (lines 355-413): whether it
completes, cancels, or raises, the `finally` block deletes the entry. -/

/-- How the history scan of a job ends. -/
inductive HistoryOutcome where
  | forbidden
  | raised
  | ok (history : List Msg)
deriving Repr

/-- The `finally` block of lines 410-413: `if user_id in
self.active_downloads: del self.active_downloads[user_id]`. -/
def finallyDelete : Option Bool → Option Bool
  | some _ => none
  | none => none

/-- `total_attachments` of line 332. -/
def totalAttachments (collected : List Msg) : Nat :=
  (collected.map (fun m => m.attachments.length)).sum

/-- The `active_downloads` entry for the requesting user after
`_execute_download` exits, per control path: `init` is the entry on entry
to the function, `loopRaises` injects an exception inside the `try`
block. -/
def activeAfterExecute (init : Option Bool) (stopOnBot : Bool) (botId statusId : Nat)
    (hist : HistoryOutcome) (flag : Nat → Bool) (loopRaises : Bool) : Option Bool :=
  match hist with
  | .forbidden => init
  | .raised => init
  | .ok history =>
    let collected := scanHistory stopOnBot botId statusId history
    if totalAttachments collected == 0 then init
    else
      match loopRaises with
      | true => finallyDelete (some true)
      | false =>
        finallyDelete (some ((dlMsgs flag (collected.map Msg.attachments) 0 0 0).cancelled))

/-! ### Per-user queue manager: enqueue (`downloadall_command`, archiver.py
lines 476-506 and 552-555) and drain loop (`process_download_queue`, lines
164-189). Jobs are identified by natural numbers; the state is one user's
queue. -/

/-- One enqueue: `queue_position = len(queue) + 1` (line 480), append the
job (line 506), and spawn a drain task iff `queue_position == 1`
(lines 553-555). Returns the new queue and whether a drain was spawned. -/
def enqueue_job (queue : List Nat) (j : Nat) : List Nat × Bool :=
  (queue ++ [j], queue.length + 1 == 1)

/-- A sequence of enqueues with no interleaved drain steps (the user stays
idle): returns the final queue and the number of drain tasks spawned. -/
def enqueue_all (queue : List Nat) : List Nat → List Nat × Nat
  | [] => (queue, 0)
  | j :: js =>
    let r := enqueue_job queue j
    let rest := enqueue_all r.1 js
    (rest.1, (if r.2 then 1 else 0) + rest.2)

/-- The drain loop of lines 178-185: while the queue is non-empty, pop the
front job (`pop(0)`) and execute it; returns the jobs in execution
order. The loop body runs under the user's exclusive lock, so it is
sequential: jobs execute one at a time. -/
def drain_queue : List Nat → List Nat
  | [] => []
  | j :: rest => j :: drain_queue rest

lemma enqueue_all_fst (js : List Nat) : ∀ queue, (enqueue_all queue js).1 = queue ++ js := by
  induction js with
  | nil => intro queue; simp [enqueue_all]
  | cons j js ih =>
    intro queue
    simp [enqueue_all, enqueue_job, ih]

lemma enqueue_all_snd_of_ne_nil (js : List Nat) :
    ∀ queue, queue ≠ [] → (enqueue_all queue js).2 = 0 := by
  induction js with
  | nil => intro queue _; simp [enqueue_all]
  | cons j js ih =>
    intro queue hq
    have hlen : (queue.length + 1 == 1) = false := by
      have hq0 : queue.length ≠ 0 := fun h => hq (List.eq_nil_of_length_eq_zero h)
      simp only [beq_eq_false_iff_ne, ne_eq]
      omega
    simp only [enqueue_all, enqueue_job, hlen, Bool.false_eq_true, if_false]
    rw [ih (queue ++ [j]) (by simp)]

lemma drain_queue_eq (l : List Nat) : drain_queue l = l := by
  induction l with
  | nil => rfl
  | cons j rest ih => simp [drain_queue, ih]

end Archiver

/-! ## Claim theorems -/

open Archiver

/-- C2: during the downloading phase the per-user cancellation flag is
checked before every single file: every fetch in the trace is immediately
preceded by a flag check that read `false`; when the run exits cancelled,
the trace ends with the first check that read `true` followed only by the
report of the partial downloaded count (so no further fetch is started),
and that reported count equals the number of successful fetches; and when
the run does not exit cancelled, every flag read during the run returned
`false` (so a set flag always forces the `CANCELLED` exit). -/
theorem cancellation_checked_before_each_file (flag : Nat → Bool)
    (msgs : List (List Bool)) :
    fetchGuarded (execDownloading flag msgs).events = true ∧
    ((execDownloading flag msgs).cancelled = true →
      ∃ pre, (execDownloading flag msgs).events =
          pre ++ [Ev.check true, Ev.cancelReport (execDownloading flag msgs).downloaded] ∧
        Ev.check true ∉ pre ∧
        (execDownloading flag msgs).downloaded = fetchOkCount pre) ∧
    ((execDownloading flag msgs).cancelled = false →
      ∀ i, i < (execDownloading flag msgs).reads → flag i = false) := by
  obtain ⟨h1, h2, h3⟩ := dlMsgs_invariant flag msgs 0 0 0
  refine ⟨fetchGuardedFrom_dlMsgs flag msgs 0 0 0 none, ?_, ?_⟩
  · intro hc
    obtain ⟨pre, g1, g2, g3⟩ := h3 hc
    exact ⟨pre, g1, g2, by simpa using g3⟩
  · intro hc i hi
    exact (h2 hc).2.2 i (Nat.zero_le i) hi

/-- C2 witness: with the flag set from the start and a single one-file
message, the run exits cancelled immediately, with the guaranteed trace
shape. -/
theorem cancellation_checked_before_each_file_witness :
    fetchGuarded (execDownloading (fun _ => true) [[true]]).events = true ∧
    (execDownloading (fun _ => true) [[true]]).cancelled = true ∧
    (∃ pre, (execDownloading (fun _ => true) [[true]]).events =
        pre ++ [Ev.check true,
          Ev.cancelReport (execDownloading (fun _ => true) [[true]]).downloaded] ∧
      Ev.check true ∉ pre ∧
      (execDownloading (fun _ => true) [[true]]).downloaded = fetchOkCount pre) :=
  ⟨(cancellation_checked_before_each_file (fun _ => true) [[true]]).1, by decide,
   (cancellation_checked_before_each_file (fun _ => true) [[true]]).2.1 (by decide)⟩

/-- C5 counterexample: the claim says a status refresh happens after a file
completes if and only if that file was a successful download whose
cumulative success count is a positive multiple of 10. On a run with a
single failing attachment and no cancellation, the code performs a refresh
(`downloaded % 10 == 0` holds with `downloaded = 0`) right after the
failed fetch, although no file succeeded at all. -/
theorem refresh_after_failure_counterexample :
    execDownloading (fun _ => false) [[false]] =
      ⟨[Ev.check false, Ev.check false, Ev.fetch false, Ev.refresh 0], 2, 0, 1, false⟩ ∧
    (execDownloading (fun _ => false) [[false]]).downloaded = 0 := by
  constructor <;> rfl

/-- C5 amended: after every file, the status surface is refreshed exactly
when the cumulative success count is divisible by 10 — including count 0
and counts reached before a failed file, not only on a 10th successful
download. Formally, the whole trace satisfies the refresh discipline
`refreshFold`: every refresh occurs immediately after a fetch whose
resulting success count is divisible by 10 and carries that count, every
such fetch is immediately followed by its refresh, and the discipline
ends with the run's final downloaded count. -/
theorem refresh_on_multiple_of_ten (flag : Nat → Bool) (msgs : List (List Bool)) :
    refreshFold (0, none) (execDownloading flag msgs).events =
      some ((execDownloading flag msgs).downloaded, none) :=
  refreshFold_dlMsgs flag msgs 0 0 0

/-- C7: the filename sanitizer is total; its output contains none of the
characters `<' '>' ':' quote slash backslash pipe question star` nor any
control character (codes 0-31), has no leading or trailing space or dot,
and is never empty; when stripping leaves nothing the fixed fallback
`unnamed_file` is returned. -/
theorem sanitize_filename_spec (s : List Char) :
    sanitizedOk (sanitize_filename s) = true ∧
    (stripDotsSpaces (replaceInvalid s) = [] →
      sanitize_filename s = "unnamed_file".data) := by
  constructor
  · unfold sanitize_filename
    by_cases he : (stripDotsSpaces (replaceInvalid s)).isEmpty
    · simp only [he, if_true]
      decide
    · simp only [he, if_false]
      unfold sanitizedOk
      simp only [Bool.and_eq_true]
      refine ⟨⟨⟨?_, ?_⟩, ?_⟩, ?_⟩
      · simpa using he
      · rw [List.all_eq_true]
        intro c hc
        have := mem_replaceInvalid (stripDotsSpaces_subset _ hc)
        simp [this]
      · exact head?_stripDotsSpaces _
      · exact getLast?_stripDotsSpaces _
  · intro h
    unfold sanitize_filename
    simp [h]

/-- C7 witness: a concrete input that strips to nothing takes the fallback
branch, and a concrete dirty name is sanitized to a valid output. -/
theorem sanitize_filename_spec_witness :
    sanitizedOk (sanitize_filename "..".data) = true ∧
    sanitize_filename "..".data = "unnamed_file".data :=
  ⟨(sanitize_filename_spec "..".data).1,
   (sanitize_filename_spec "..".data).2 (by decide)⟩

/-- C10: when no owner identity is configured (environment value absent or
the empty string), `is_authorized` returns `false` for every user id,
including ids in the approved-user list. -/
theorem is_authorized_no_owner (env : Option String) (parse : String → Int)
    (approved : List Int) (uid : Int)
    (h : env = none ∨ env = some "") :
    is_authorized (ownerIdOfEnv env parse) approved uid = false := by
  rcases h with h | h <;> subst h <;> rfl

/-- C10 witness: with an empty owner environment value, a user listed in
the approved set is still rejected. -/
theorem is_authorized_no_owner_witness :
    ((some "" : Option String) = none ∨ (some "" : Option String) = some "") ∧
    is_authorized (ownerIdOfEnv (some "") (fun _ => 0)) [5] 5 = false :=
  ⟨Or.inr rfl, is_authorized_no_owner (some "") (fun _ => 0) [5] 5 (Or.inr rfl)⟩

/-- C4: with the incremental flag set, the scan stops at the first message
authored by the bot other than the status message, and collects exactly
the attachment-bearing messages that occur strictly before that cutoff. -/
theorem incremental_scan_cutoff (botId statusId : Nat) (pre post : List Msg) (m : Msg)
    (hm : isCutoff true botId statusId m = true)
    (hpre : ∀ x ∈ pre, isCutoff true botId statusId x = false) :
    scanHistory true botId statusId (pre ++ m :: post) =
      pre.filter (fun x => !x.attachments.isEmpty) := by
  induction pre with
  | nil => simp [scanHistory, hm]
  | cons x xs ih =>
    have hx : isCutoff true botId statusId x = false := hpre x (List.mem_cons_self x xs)
    have hxs : ∀ y ∈ xs, isCutoff true botId statusId y = false :=
      fun y hy => hpre y (List.mem_cons_of_mem x hy)
    by_cases ha : x.attachments.isEmpty
    · simp [scanHistory, hx, ha, ih hxs, List.filter_cons]
    · simp only [List.cons_append, scanHistory, hx, if_false, ha, Bool.false_eq_true,
        List.filter_cons]
      simp only [ha, Bool.not_false, if_true, List.cons.injEq, true_and]
      exact ih hxs

/-- C4 witness: the spec's example history (newest-first)
`[status bot message, user message with one attachment, older bot message,
user message with one attachment]` yields exactly the single attachment
preceding the second bot message. -/
theorem incremental_scan_cutoff_witness :
    (isCutoff true 1 100 ⟨1, 102, []⟩ = true) ∧
    (∀ x ∈ [Msg.mk 1 100 [], Msg.mk 2 101 [true]], isCutoff true 1 100 x = false) ∧
    scanHistory true 1 100
        [⟨1, 100, []⟩, ⟨2, 101, [true]⟩, ⟨1, 102, []⟩, ⟨3, 103, [true]⟩] =
      [⟨2, 101, [true]⟩] :=
  ⟨by decide, by decide,
   (incremental_scan_cutoff 1 100 [⟨1, 100, []⟩, ⟨2, 101, [true]⟩] [⟨3, 103, [true]⟩]
      ⟨1, 102, []⟩ (by decide) (by decide)).trans (by decide)⟩

/-- C8: the unique-name resolver returns the desired name unchanged when
no file with that name exists, and otherwise returns the candidate
`stem_n.ext` for the least counter `n ≥ 1` whose candidate does not
exist. -/
theorem get_unique_filename_spec (existing : List (List Char)) (filename : List Char) :
    (filename ∉ existing → get_unique_filename existing filename = some filename) ∧
    (filename ∈ existing → ∃ n, 1 ≤ n ∧
      get_unique_filename existing filename =
        some (candName (splitStemSuffix filename).1 (splitStemSuffix filename).2 n) ∧
      candName (splitStemSuffix filename).1 (splitStemSuffix filename).2 n ∉ existing ∧
      ∀ m, 1 ≤ m → m < n →
        candName (splitStemSuffix filename).1 (splitStemSuffix filename).2 m ∈ existing) := by
  constructor
  · intro h
    simp [get_unique_filename, h]
  · intro h
    have hsome : (probeCounter existing (splitStemSuffix filename).1
        (splitStemSuffix filename).2 (existing.length + 1) 1).isSome = true := by
      apply probeCounter_isSome
      rcases exists_free_candidate existing (splitStemSuffix filename).1
        (splitStemSuffix filename).2 with ⟨n, hn1, hn2, hn3⟩
      exact ⟨n, hn1, by omega, hn3⟩
    rcases Option.isSome_iff_exists.1 hsome with ⟨c, hc⟩
    rcases probeCounter_characterize existing (splitStemSuffix filename).1
      (splitStemSuffix filename).2 _ _ _ hc with ⟨n, hn1, hn2, hn3, hn4⟩
    refine ⟨n, hn1, ?_, hn3, hn4⟩
    rw [get_unique_filename, if_pos h, hc, hn2]

/-- C8 witness: the spec's example. With existing files `a.txt` and
`a_1.txt`, resolving `a.txt` yields `a_2.txt`; the least-counter
characterization holds there. -/
theorem get_unique_filename_spec_witness :
    ("a.txt".data ∈ ["a.txt".data, "a_1.txt".data]) ∧
    get_unique_filename ["a.txt".data, "a_1.txt".data] "a.txt".data =
      some "a_2.txt".data ∧
    (∃ n, 1 ≤ n ∧
      get_unique_filename ["a.txt".data, "a_1.txt".data] "a.txt".data =
        some (candName (splitStemSuffix "a.txt".data).1
          (splitStemSuffix "a.txt".data).2 n) ∧
      candName (splitStemSuffix "a.txt".data).1 (splitStemSuffix "a.txt".data).2 n ∉
        ["a.txt".data, "a_1.txt".data] ∧
      ∀ m, 1 ≤ m → m < n →
        candName (splitStemSuffix "a.txt".data).1 (splitStemSuffix "a.txt".data).2 m ∈
          ["a.txt".data, "a_1.txt".data]) :=
  ⟨by decide, by decide,
   (get_unique_filename_spec ["a.txt".data, "a_1.txt".data] "a.txt".data).2 (by decide)⟩

/-- C9: for every finite set of existing files the unbounded counter loop
terminates: some counter at most `existing.length + 1` yields a candidate
outside the existing set, and the resolver (run with that much fuel)
returns a result. -/
theorem get_unique_filename_terminates (existing : List (List Char)) (filename : List Char) :
    (get_unique_filename existing filename).isSome = true ∧
    ∃ n, 1 ≤ n ∧ n ≤ existing.length + 1 ∧
      candName (splitStemSuffix filename).1 (splitStemSuffix filename).2 n ∉ existing := by
  refine ⟨?_, exists_free_candidate existing _ _⟩
  by_cases h : filename ∈ existing
  · rw [get_unique_filename, if_pos h]
    apply probeCounter_isSome
    rcases exists_free_candidate existing (splitStemSuffix filename).1
      (splitStemSuffix filename).2 with ⟨n, hn1, hn2, hn3⟩
    exact ⟨n, hn1, by omega, hn3⟩
  · simp [get_unique_filename, h]

/-- C6: the file fetcher consumes exactly one request outcome (no retry),
never propagates an exception (it is a total function into `Bool`), and
returns `true` exactly when the HTTP status is 200 and the body was
written without error; any non-200 status or any transport or write
exception yields `false`. -/
theorem download_file_result (r : HttpResult) (rest : List HttpResult) :
    ((download_file (r :: rest)).fst = true ↔ r = .response 200 false) ∧
    (download_file (r :: rest)).snd = rest := by
  refine ⟨?_, rfl⟩
  cases r with
  | transportExn => simp [download_file, download_file_attempt]
  | response status writeFails =>
    by_cases hs : status = 200
    · subst hs
      cases writeFails <;> simp [download_file, download_file_attempt]
    · have : (status == 200) = false := by simpa using hs
      simp [download_file, download_file_attempt, this, hs]

/-- C3: on every exit path of `_execute_download` — permission failure or
exception during the scan, zero attachments found, normal completion,
cancellation, or an exception raised during downloading — when no
active-download entry exists for the user on entry (which the per-user
serialization guarantees), no active-download entry remains for the user
after the function returns. -/
theorem active_download_record_cleanup (init : Option Bool) (stopOnBot : Bool)
    (botId statusId : Nat) (hist : HistoryOutcome) (flag : Nat → Bool)
    (loopRaises : Bool) (h : init = none) :
    activeAfterExecute init stopOnBot botId statusId hist flag loopRaises = none := by
  subst h
  cases hist with
  | forbidden => rfl
  | raised => rfl
  | ok history =>
    simp only [activeAfterExecute]
    by_cases hz : (totalAttachments (scanHistory stopOnBot botId statusId history) == 0) = true
    · simp [hz]
    · rw [Bool.not_eq_true] at hz
      simp only [hz, Bool.false_eq_true, if_false]
      cases loopRaises <;> rfl

/-- C3 witness: a run over a single one-attachment message, not cancelled
and not raising, leaves no active-download entry. -/
theorem active_download_record_cleanup_witness :
    (none : Option Bool) = none ∧
    activeAfterExecute none false 1 100 (HistoryOutcome.ok [⟨2, 101, [true]⟩])
      (fun _ => false) false = none :=
  ⟨rfl, active_download_record_cleanup none false 1 100
    (HistoryOutcome.ok [⟨2, 101, [true]⟩]) (fun _ => false) false rfl⟩

/-- C1: enqueueing any non-empty batch of jobs for a user while that user
is idle (empty queue, no drain running) spawns exactly one drain task —
the first enqueue sees queue position 1 and spawns it, later enqueues see
positions greater than 1 and only append — and the drain loop then
executes exactly the enqueued jobs in FIFO order, popping the front job
before executing it, one at a time under the user's exclusive lock. -/
theorem queue_single_drain_fifo (js : List Nat) (h : js ≠ []) :
    (enqueue_all [] js).2 = 1 ∧
    (enqueue_all [] js).1 = js ∧
    drain_queue (enqueue_all [] js).1 = js := by
  refine ⟨?_, by simpa using enqueue_all_fst js [], ?_⟩
  · cases js with
    | nil => exact absurd rfl h
    | cons j rest =>
      simp only [enqueue_all, enqueue_job]
      rw [enqueue_all_snd_of_ne_nil rest ([] ++ [j]) (by simp)]
      rfl
  · rw [enqueue_all_fst js []]
    simpa using drain_queue_eq js

/-- C1 witness: the spec's scenario — three jobs enqueued while idle spawn
exactly one drain loop and run in FIFO order. -/
theorem queue_single_drain_fifo_witness :
    ([1, 2, 3] : List Nat) ≠ [] ∧
    (enqueue_all [] [1, 2, 3]).2 = 1 ∧
    (enqueue_all [] [1, 2, 3]).1 = [1, 2, 3] ∧
    drain_queue (enqueue_all [] [1, 2, 3]).1 = [1, 2, 3] :=
  ⟨by decide, queue_single_drain_fifo [1, 2, 3] (by decide)⟩
